import Mathlib

/-!
Shallow embedding of the `refactor` churn-analysis tool (`main.go`) and
proofs of the specification's testable properties.

Modelling conventions:
* Go strings are modelled as Lean `String` (paths and log lines here are
  ASCII, so byte indexing and character indexing agree).
* Go `float64` scores are modelled as `ℕ`: every score the program computes
  is a sum/product of digit counts and list lengths, all exact integers.
* Go maps are modelled as association lists with explicit lookup, insert,
  erase and increment operations (Go map iteration order is unspecified;
  nothing proved below depends on the association-list order).
* Fallible operations (external `git` invocations, panicking slices)
  are modelled with `Option`.
-/

set_option autoImplicit false

namespace Refactor

/-! ### Data model (`Author`, `Diff`, `Commit`, `Reason`, `Target`) -/

structure Author where
  Name : String
  Email : String
  Time : Int
  deriving Repr, DecidableEq

structure Diff where
  File : String
  Add : Nat
  Delete : Nat
  deriving Repr, DecidableEq

structure Commit where
  ID : String
  Tree : String
  Parent : String
  Author : Author
  Message : List String
  Diff : List Diff
  deriving Repr, DecidableEq

structure Reason where
  Line : String
  Count : Nat
  deriving Repr, DecidableEq

structure Target where
  Name : String
  Commit : List Commit
  Score : Nat
  Reason : List Reason
  deriving Repr, DecidableEq

/-! ### `edit2score`: the per-file magnitude score

Go source:
```
func edit2score(n int) (score float64) {
    for {
        if n < 1 { break }
        score++
        n /= 10
    }
    return
}
```
The loop adds 1 and divides by 10 until the argument drops below 1,
i.e. it counts the decimal digits of `n`. -/

def edit2score (n : Nat) : Nat :=
  if n < 1 then 0 else edit2score (n / 10) + 1
decreasing_by exact Nat.div_lt_self (by omega) (by norm_num)

/-- The score the Churn Scorer assigns to one file diff
(`edit2score(diff.Add + diff.Delete)` in `main`). -/
def fileScore (d : Diff) : Nat :=
  edit2score (d.Add + d.Delete)

/-! ### `shorten`: name truncation for the report

Go source:
```
func shorten(s string, l int) string {
    if l < 3 { return "" }
    if len(s) > l { return s[:l-3] + "..." }
    return s
}
``` -/

def shorten (s : String) (l : Nat) : String :=
  if l < 3 then ""
  else if l < s.length then s.take (l - 3) ++ "..."
  else s

/-! ### Arithmetic lemmas about `edit2score` -/

lemma edit2score_zero : edit2score 0 = 0 := by
  unfold edit2score; simp

lemma edit2score_pos_eq (n : Nat) (h : 1 ≤ n) :
    edit2score n = edit2score (n / 10) + 1 := by
  rw [edit2score]
  simp [Nat.not_lt.mpr h]

lemma edit2score_eq_log_succ (n : Nat) (h : 1 ≤ n) :
    edit2score n = Nat.log 10 n + 1 := by
  induction n using Nat.strong_induction_on with
  | _ n ih =>
    rw [edit2score_pos_eq n h]
    rcases Nat.lt_or_ge n 10 with hlt | hge
    · have h10 : n / 10 = 0 := Nat.div_eq_of_lt hlt
      have hlog : Nat.log 10 n = 0 :=
        Nat.log_eq_zero_iff.mpr (Or.inl hlt)
      rw [h10, hlog, edit2score_zero]
    · have hdivpos : 1 ≤ n / 10 := by
        have hd : 10 * 1 ≤ n := by omega
        exact Nat.le_div_iff_mul_le (by norm_num) |>.mpr (by omega)
      have hdivlt : n / 10 < n := Nat.div_lt_self (by omega) (by norm_num)
      have hlogpos : 0 < Nat.log 10 n :=
        Nat.log_pos (by norm_num) hge
      have hstep : Nat.log 10 (n / 10) = Nat.log 10 n - 1 :=
        Nat.log_div_base 10 n
      rw [ih (n / 10) hdivlt hdivpos, hstep]
      omega

/-! ### Claim theorems: magnitude score and name truncation -/

/-! ### Churn Scorer (`main`, lines 206–245)

Go source (the `add` closure and the per-commit loop):
```
add := func(name string, commit *Commit, score float64) {
    if t, ok := m[name]; ok {
        t.Commit = append(t.Commit, commit)
        t.Score += score
    } else {
        m[name] = &Target{Name: name, Score: score, Commit: []*Commit{commit}}
    }
}
for _, commit := range commits {
    var files []string
    var score float64
    for _, diff := range commit.Diff {
        if strings.HasSuffix(diff.File, ".h") || ... ".c" ... ".go" {
            fileScore := edit2score(diff.Add + diff.Delete)
            files = append(files, diff.File)
            score += fileScore
            add(diff.File, commit, fileScore)
        }
    }
    if len(files) >= 2 {
        score *= float64(len(files))
        group := strings.Join(files, ",")
        add(group, commit, score)
    }
}
```
The Go map `m` is modelled as an association list `TargetMap`. -/

def TargetMap : Type := List (String × Target)

/-- `strings.HasSuffix`, on the character lists underlying the strings
(the program's paths and lines are ASCII, where bytes and characters
agree). -/
def hasSuffix (s suf : String) : Bool :=
  List.isSuffixOf suf.data s.data

/-- `strings.HasPrefix`. -/
def hasPrefix (s pre : String) : Bool :=
  List.isPrefixOf pre.data s.data

/-- Whether a path has one of the recognized source-file extensions. -/
def isQualifying (file : String) : Bool :=
  hasSuffix file ".h" || hasSuffix file ".c" || hasSuffix file ".go"

/-- The qualifying diffs of a commit, in diff order. -/
def qualDiffs (c : Commit) : List Diff :=
  c.Diff.filter (fun d => isQualifying d.File)

/-- The `files` list the per-commit loop accumulates. -/
def qualFiles (c : Commit) : List String :=
  (qualDiffs c).map (fun d => d.File)

/-- The `score` accumulator of the per-commit loop (sum of the per-file
magnitude scores of the qualifying diffs). -/
def qualScoreSum (c : Commit) : Nat :=
  ((qualDiffs c).map fileScore).sum

/-- The `add` closure of `main`: append the commit and add the score if a
target of this name exists, otherwise create it. -/
def addTarget (name : String) (c : Commit) (score : Nat) : TargetMap → TargetMap
  | [] => [(name, { Name := name, Commit := [c], Score := score, Reason := [] })]
  | (k, t) :: rest =>
    if k = name then
      (k, { t with Commit := t.Commit ++ [c], Score := t.Score + score }) :: rest
    else
      (k, t) :: addTarget name c score rest

/-- The inner loop of the Churn Scorer: one `add` per qualifying diff. -/
def perFileAdds (m : TargetMap) (c : Commit) : TargetMap :=
  (qualDiffs c).foldl (fun acc d => addTarget d.File c (fileScore d) acc) m

/-- One iteration of the Churn Scorer's per-commit loop: the per-file adds
followed by the conditional co-change group add. -/
def processCommit (m : TargetMap) (c : Commit) : TargetMap :=
  let m1 := perFileAdds m c
  if 2 ≤ (qualFiles c).length then
    addTarget (String.intercalate "," (qualFiles c)) c
      (qualScoreSum c * (qualFiles c).length) m1
  else
    m1

/-- The whole Churn Scorer pass over the commit list. -/
def buildTargets (commits : List Commit) : TargetMap :=
  commits.foldl processCommit []

/-- Lookup in the target map. -/
def mapFind : TargetMap → String → Option Target
  | [], _ => none
  | (k, t) :: rest, name => if k = name then some t else mapFind rest name

/-- The accumulated score of a name in the map (`0` when absent). -/
def scoreOf (m : TargetMap) (name : String) : Nat :=
  match mapFind m name with
  | some t => t.Score
  | none => 0

/-- The commit is recorded as a member of the named target. -/
def memberOf (m : TargetMap) (name : String) (c : Commit) : Prop :=
  ∃ t, mapFind m name = some t ∧ c ∈ t.Commit

/-! ### Lemmas about `addTarget` and `perFileAdds` -/

lemma mapFind_addTarget_ne (name n : String) (c : Commit) (s : Nat)
    (m : TargetMap) (h : n ≠ name) :
    mapFind (addTarget name c s m) n = mapFind m n := by
  have hnn : ¬ (name = n) := fun hh => h hh.symm
  induction m with
  | nil => simp [addTarget, mapFind, hnn]
  | cons p rest ih =>
    obtain ⟨k, t⟩ := p
    by_cases hk : k = name
    · subst hk
      simp [addTarget, mapFind, hnn]
    · by_cases hkn : k = n
      · simp [addTarget, hk, mapFind, hkn, hnn, h]
      · simp [addTarget, hk, mapFind, hkn, ih]

lemma scoreOf_addTarget_self (name : String) (c : Commit) (s : Nat)
    (m : TargetMap) :
    scoreOf (addTarget name c s m) name = scoreOf m name + s := by
  induction m with
  | nil => simp [addTarget, scoreOf, mapFind]
  | cons p rest ih =>
    obtain ⟨k, t⟩ := p
    by_cases hk : k = name
    · subst hk
      simp [addTarget, scoreOf, mapFind]
    · simpa [addTarget, hk, scoreOf, mapFind] using ih

lemma memberOf_addTarget_self (name : String) (c : Commit) (s : Nat)
    (m : TargetMap) :
    memberOf (addTarget name c s m) name c := by
  induction m with
  | nil =>
    refine ⟨{ Name := name, Commit := [c], Score := s, Reason := [] }, ?_, ?_⟩
    · simp [addTarget, mapFind]
    · simp
  | cons p rest ih =>
    obtain ⟨k, t⟩ := p
    by_cases hk : k = name
    · subst hk
      refine ⟨{ t with Commit := t.Commit ++ [c], Score := t.Score + s }, ?_, ?_⟩
      · simp [addTarget, mapFind]
      · simp
    · obtain ⟨u, hu, hc⟩ := ih
      exact ⟨u, by simp [addTarget, hk, mapFind, hu], hc⟩

lemma memberOf_addTarget_mono (name n : String) (c c' : Commit) (s : Nat)
    (m : TargetMap) (h : memberOf m n c) :
    memberOf (addTarget name c' s m) n c := by
  obtain ⟨t, ht, hc⟩ := h
  by_cases hn : n = name
  · subst hn
    induction m with
    | nil => simp [mapFind] at ht
    | cons p rest ih =>
      obtain ⟨k, u⟩ := p
      by_cases hk : k = n
      · subst hk
        simp [mapFind] at ht
        refine ⟨{ u with Commit := u.Commit ++ [c'], Score := u.Score + s },
          ?_, ?_⟩
        · simp [addTarget, mapFind]
        · subst ht; simp [hc]
      · simp only [mapFind, hk, if_false] at ht
        obtain ⟨v, hv, hvc⟩ := ih ht
        exact ⟨v, by simp [addTarget, hk, mapFind, hv], hvc⟩
  · exact ⟨t, by rw [mapFind_addTarget_ne _ _ _ _ _ hn]; exact ht, hc⟩

lemma memberOf_foldl_addTarget_mono (c c' : Commit) (n : String) :
    ∀ (ds : List Diff) (m : TargetMap), memberOf m n c →
      memberOf
        (ds.foldl (fun acc d => addTarget d.File c' (fileScore d) acc) m) n c
  | [], m, h => h
  | d :: rest, m, h => by
    simp only [List.foldl_cons]
    exact memberOf_foldl_addTarget_mono c c' n rest _
      (memberOf_addTarget_mono _ _ _ _ _ _ h)

lemma memberOf_perFileAdds_mono (m : TargetMap) (c c' : Commit) (n : String)
    (h : memberOf m n c) : memberOf (perFileAdds m c') n c :=
  memberOf_foldl_addTarget_mono c c' n (qualDiffs c') m h

lemma memberOf_perFileAdds (m : TargetMap) (c : Commit) (d : Diff)
    (hd : d ∈ qualDiffs c) : memberOf (perFileAdds m c) d.File c := by
  unfold perFileAdds
  have main : ∀ (ds : List Diff) (m : TargetMap), d ∈ ds →
      memberOf (ds.foldl (fun acc d => addTarget d.File c (fileScore d) acc) m)
        d.File c := by
    intro ds
    induction ds with
    | nil => intro m h; simp at h
    | cons e rest ih =>
      intro m h
      simp only [List.foldl_cons]
      rcases List.mem_cons.mp h with he | hrest
      · subst he
        exact memberOf_foldl_addTarget_mono c c d.File rest _
          (memberOf_addTarget_self d.File c (fileScore d) m)
      · exact ih _ hrest
  exact main _ m hd

/-! ### Claim theorem: co-change group targets -/

/-- C3: a co-change group target is added exactly when a commit touches at
least two qualifying files; its score contribution for that commit is
`(sum of member file scores) × (file count)`, and the commit is recorded as
a member of the group target and of every per-file target. -/
theorem cochange_group (m : TargetMap) (c : Commit) :
    (2 ≤ (qualFiles c).length →
      memberOf (processCommit m c) (String.intercalate "," (qualFiles c)) c ∧
      scoreOf (processCommit m c) (String.intercalate "," (qualFiles c)) =
        scoreOf (perFileAdds m c) (String.intercalate "," (qualFiles c)) +
          qualScoreSum c * (qualFiles c).length ∧
      ∀ f ∈ qualFiles c, memberOf (processCommit m c) f c) ∧
    ((qualFiles c).length < 2 → processCommit m c = perFileAdds m c) := by
  constructor
  · intro h2
    have hproc : processCommit m c =
        addTarget (String.intercalate "," (qualFiles c)) c
          (qualScoreSum c * (qualFiles c).length) (perFileAdds m c) := by
      unfold processCommit
      simp [h2]
    refine ⟨?_, ?_, ?_⟩
    · rw [hproc]
      exact memberOf_addTarget_self _ _ _ _
    · rw [hproc]
      exact scoreOf_addTarget_self _ _ _ _
    · intro f hf
      rw [hproc]
      obtain ⟨d, hd, hdf⟩ := by
        simpa [qualFiles, List.mem_map] using hf
      have := memberOf_perFileAdds m c d hd
      rw [hdf] at this
      exact memberOf_addTarget_mono _ _ _ _ _ _ this
  · intro hlt
    unfold processCommit
    simp [Nat.not_le.mpr hlt]

/-- A concrete commit touching two qualifying files (`a.go`, 12 lines and
`b.c`, 3 lines) and one non-qualifying file. -/
def sampleCommit : Commit :=
  ⟨"c1", "", "", ⟨"", "", 0⟩, [],
    [⟨"a.go", 10, 2⟩, ⟨"b.c", 3, 0⟩, ⟨"notes.txt", 9, 9⟩]⟩

/-- Witness for `cochange_group`: for `sampleCommit` the group `a.go,b.c`
gets score `(2 + 1) × 2 = 6` and records the commit. -/
theorem cochange_group_witness :
    memberOf (processCommit [] sampleCommit) "a.go,b.c" sampleCommit ∧
    scoreOf (processCommit [] sampleCommit) "a.go,b.c" = 6 := by
  have h := cochange_group [] sampleCommit
  have hj : String.intercalate "," (qualFiles sampleCommit) = "a.go,b.c" := by
    decide
  obtain ⟨hmem, hscore, -⟩ := h.1 (by decide)
  rw [hj] at hmem hscore
  refine ⟨hmem, ?_⟩
  rw [hscore]
  have h0 : scoreOf (perFileAdds [] sampleCommit) "a.go,b.c" = 0 := by decide
  have hq : qualDiffs sampleCommit = [⟨"a.go", 10, 2⟩, ⟨"b.c", 3, 0⟩] := by
    decide
  have hlen : (qualFiles sampleCommit).length = 2 := by decide
  rw [h0, hlen]
  have e1 : edit2score 12 = 2 := by
    rw [edit2score_eq_log_succ 12 (by norm_num),
      show Nat.log 10 12 = 1 from
        Nat.log_eq_of_pow_le_of_lt_pow (by norm_num) (by norm_num)]
  have e2 : edit2score 3 = 1 := by
    rw [edit2score_eq_log_succ 3 (by norm_num),
      show Nat.log 10 3 = 0 from
        Nat.log_eq_zero_iff.mpr (Or.inl (by norm_num))]
  have hsum : qualScoreSum sampleCommit = 3 := by
    rw [qualScoreSum, hq]
    simp [fileScore, e1, e2]
  rw [hsum]

/-! ### Thrash Detector (`main`, lines 248–288)

Go source (per target `t`):
```
plus := make(map[string]string)
minus := make(map[string]string)
delta := make(map[string]int)
for _, commit := range t.Commit {
    add, del, err := GitDiff(commit.ID)
    if err != nil { continue }
    for _, line := range add {
        if id, ok := minus[line]; ok && id != commit.ID {
            delta[line]++
            delete(minus, line)
        }
        plus[line] = commit.ID
    }
    for _, line := range del {
        if id, ok := plus[line]; ok && id != commit.ID {
            delta[line]++
            delete(plus, line)
        }
        minus[line] = commit.ID
    }
}
var total int
for line, count := range delta {
    t.Reason = append(t.Reason, &Reason{Line: line, Count: count})
    total += count
}
sort.Sort(ByCount(t.Reason))
t.Score *= float64(total)
if t.Score > 0 { targets = append(targets, t) }
```
The external `git diff` invocation is modelled as an oracle
`g : String → Option (List String × List String)` mapping a commit id to
its extracted (added, removed) line lists, `none` when the invocation
fails. -/

def assocFind {α : Type} : List (String × α) → String → Option α
  | [], _ => none
  | (k, v) :: rest, key => if k = key then some v else assocFind rest key

def assocSet {α : Type} : List (String × α) → String → α → List (String × α)
  | [], k, v => [(k, v)]
  | (k', v') :: rest, k, v =>
    if k' = k then (k', v) :: rest else (k', v') :: assocSet rest k v

def assocErase {α : Type} : List (String × α) → String → List (String × α)
  | [], _ => []
  | (k', v') :: rest, k => if k' = k then rest else (k', v') :: assocErase rest k

/-- `delta[line]++` on a Go map (missing key counts as `0`). -/
def bumpCount : List (String × Nat) → String → List (String × Nat)
  | [], k => [(k, 1)]
  | (k', n) :: rest, k =>
    if k' = k then (k', n + 1) :: rest else (k', n) :: bumpCount rest k

/-- The working state of the thrash replay: the `plus`, `minus` and `delta`
maps. -/
structure TState where
  plus : List (String × String)
  minus : List (String × String)
  delta : List (String × Nat)
  deriving Repr, DecidableEq

/-- Processing one added line of the current commit. -/
def stepAddLine (cid : String) (st : TState) (line : String) : TState :=
  let st1 :=
    match assocFind st.minus line with
    | some id =>
      if id ≠ cid then
        { st with delta := bumpCount st.delta line,
                  minus := assocErase st.minus line }
      else st
    | none => st
  { st1 with plus := assocSet st1.plus line cid }

/-- Processing one removed line of the current commit. -/
def stepDelLine (cid : String) (st : TState) (line : String) : TState :=
  let st1 :=
    match assocFind st.plus line with
    | some id =>
      if id ≠ cid then
        { st with delta := bumpCount st.delta line,
                  plus := assocErase st.plus line }
      else st
    | none => st
  { st1 with minus := assocSet st1.minus line cid }

/-- Processing one member commit: fetch its diff (skip on failure), then
replay its added lines and its removed lines. -/
def stepCommit (g : String → Option (List String × List String))
    (st : TState) (c : Commit) : TState :=
  match g c.ID with
  | none => st
  | some (addLines, delLines) =>
    let st1 := addLines.foldl (stepAddLine c.ID) st
    delLines.foldl (stepDelLine c.ID) st1

/-- The whole replay over a target's member commits. -/
def replayCommits (g : String → Option (List String × List String))
    (cs : List Commit) : TState :=
  cs.foldl (stepCommit g) ⟨[], [], []⟩

/-- `total`: the sum of all thrash counts of a target. -/
def thrashTotal (g : String → Option (List String × List String))
    (t : Target) : Nat :=
  ((replayCommits g t.Commit).delta.map Prod.snd).sum

/-- The `Reason` list built from the `delta` map. -/
def targetReasons (g : String → Option (List String × List String))
    (t : Target) : List Reason :=
  (replayCommits g t.Commit).delta.map (fun p => ⟨p.1, p.2⟩)

/-- `sort.Sort(ByCount(t.Reason))`: descending by count. -/
def sortReasons (rs : List Reason) : List Reason :=
  rs.insertionSort (fun a b => b.Count ≤ a.Count)

/-- The post-replay update of one target: reasons attached and sorted, the
churn score multiplied by the total thrash count. -/
def finalizeTarget (g : String → Option (List String × List String))
    (t : Target) : Target :=
  { t with Reason := sortReasons (targetReasons g t),
           Score := t.Score * thrashTotal g t }

/-- The surviving targets: finalized, kept only when the score is
positive. -/
def survivors (g : String → Option (List String × List String))
    (ts : List Target) : List Target :=
  (ts.map (finalizeTarget g)).filter (fun t => decide (0 < t.Score))

/-- A commit stub carrying only an identifier (the replay reads nothing
else). -/
def mkCommit (id : String) : Commit :=
  ⟨id, "", "", ⟨"", "", 0⟩, [], []⟩

lemma assocFind_assocSet_self {α : Type} (m : List (String × α))
    (k : String) (v : α) : assocFind (assocSet m k v) k = some v := by
  induction m with
  | nil => simp [assocSet, assocFind]
  | cons p rest ih =>
    obtain ⟨k', v'⟩ := p
    by_cases hk : k' = k
    · simp [assocSet, assocFind, hk]
    · simp [assocSet, assocFind, hk, ih]

/-! ### Claim theorems: thrash detection -/

/-- C1: thrash detection is commit-identity-sensitive.  (1) A line added
and removed by the same commit produces no `delta` entry (from a state with
no stale entry for that line).  (2) A line added by commit `A` and removed
by a different commit `B` yields exactly count 1 and consumes the `plus`
entry.  (3) A further removal of the same line by any third commit does not
increase the count: a fresh add/remove pair would be needed. -/
theorem thrash_commit_identity :
    (∀ (g : String → Option (List String × List String)) (st : TState)
        (id l : String),
      g id = some ([l], [l]) →
      assocFind st.minus l = none →
      (stepCommit g st (mkCommit id)).delta = st.delta) ∧
    (∀ (g : String → Option (List String × List String)) (idA idB l : String),
      idA ≠ idB →
      g idA = some ([l], []) →
      g idB = some ([], [l]) →
      assocFind (replayCommits g [mkCommit idA, mkCommit idB]).delta l =
          some 1 ∧
      assocFind (replayCommits g [mkCommit idA, mkCommit idB]).plus l =
          none) ∧
    (∀ (g : String → Option (List String × List String))
        (idA idB idC l : String),
      idA ≠ idB →
      g idA = some ([l], []) →
      g idB = some ([], [l]) →
      g idC = some ([], [l]) →
      assocFind
        (replayCommits g [mkCommit idA, mkCommit idB, mkCommit idC]).delta l =
        some 1) := by
  refine ⟨?_, ?_, ?_⟩
  · intro g st id l hg hm
    simp only [stepCommit, mkCommit, hg, List.foldl_cons, List.foldl_nil]
    simp only [stepAddLine, hm]
    simp only [stepDelLine, assocFind_assocSet_self, ne_eq,
      not_true_eq_false, if_false]
  · intro g idA idB l hAB hgA hgB
    simp [replayCommits, stepCommit, mkCommit, hgA, hgB, stepAddLine,
      stepDelLine, assocFind, assocSet, assocErase, bumpCount, hAB]
  · intro g idA idB idC l hAB hgA hgB hgC
    simp [replayCommits, stepCommit, mkCommit, hgA, hgB, hgC, stepAddLine,
      stepDelLine, assocFind, assocSet, assocErase, bumpCount, hAB]

/-- A concrete diff oracle for the witness: commit `a` adds `x = 1`,
commit `b` removes it. -/
def sampleOracle : String → Option (List String × List String) :=
  fun id =>
    if id = "a" then some (["x = 1"], [])
    else if id = "b" then some ([], ["x = 1"])
    else none

/-- Witness for `thrash_commit_identity`: the add in `a` and remove in `b`
count exactly once and consume the `plus` entry. -/
theorem thrash_commit_identity_witness :
    assocFind
      (replayCommits sampleOracle [mkCommit "a", mkCommit "b"]).delta
      "x = 1" = some 1 ∧
    assocFind
      (replayCommits sampleOracle [mkCommit "a", mkCommit "b"]).plus
      "x = 1" = none :=
  thrash_commit_identity.2.1 sampleOracle "a" "b" "x = 1"
    (by decide) rfl rfl

/-- The always-failing diff oracle (every patch fetch fails). -/
def failOracle : String → Option (List String × List String) :=
  fun _ => none

/-- C8: a failed patch fetch for a commit is non-fatal: the commit
contributes nothing to the replay state, the replay result is as if the
commit were absent, and the finalized target keeps its full member-commit
list. -/
theorem failed_patch_skip (g : String → Option (List String × List String))
    (c : Commit) (h : g c.ID = none) :
    (∀ st : TState, stepCommit g st c = st) ∧
    (∀ cs1 cs2 : List Commit,
      replayCommits g (cs1 ++ c :: cs2) = replayCommits g (cs1 ++ cs2)) ∧
    (∀ t : Target, (finalizeTarget g t).Commit = t.Commit) := by
  have hstep : ∀ st : TState, stepCommit g st c = st := by
    intro st
    simp [stepCommit, h]
  refine ⟨hstep, ?_, ?_⟩
  · intro cs1 cs2
    simp [replayCommits, List.foldl_append, List.foldl_cons, hstep]
  · intro t
    rfl

/-- Witness for `failed_patch_skip` with the always-failing oracle. -/
theorem failed_patch_skip_witness :
    stepCommit failOracle ⟨[], [], []⟩ (mkCommit "dead") = ⟨[], [], []⟩ ∧
    replayCommits failOracle [mkCommit "dead"] = replayCommits failOracle [] ∧
    (finalizeTarget failOracle
        ⟨"refs.c", [mkCommit "dead"], 7, []⟩).Commit =
      (⟨"refs.c", [mkCommit "dead"], 7, []⟩ : Target).Commit :=
  ⟨(failed_patch_skip failOracle (mkCommit "dead") rfl).1 ⟨[], [], []⟩,
   (failed_patch_skip failOracle (mkCommit "dead") rfl).2.1 [] [],
   (failed_patch_skip failOracle (mkCommit "dead") rfl).2.2
     ⟨"refs.c", [mkCommit "dead"], 7, []⟩⟩

/-- C4: the final score is the prior churn score times the total thrash
count; a target with total thrash count zero is excluded from the output
whatever its churn score; and exactly the finalized targets with positive
score survive. -/
theorem zero_thrash_excluded (g : String → Option (List String × List String))
    (ts : List Target) (t : Target) :
    (finalizeTarget g t).Score = t.Score * thrashTotal g t ∧
    (thrashTotal g t = 0 → finalizeTarget g t ∉ survivors g ts) ∧
    (∀ u, u ∈ survivors g ts ↔
      (∃ t' ∈ ts, u = finalizeTarget g t') ∧ 0 < u.Score) := by
  have key : ∀ u, u ∈ survivors g ts ↔
      (∃ t' ∈ ts, u = finalizeTarget g t') ∧ 0 < u.Score := by
    intro u
    constructor
    · intro hu
      rcases List.mem_filter.mp hu with ⟨hmap, hsc⟩
      rcases List.mem_map.mp hmap with ⟨t', ht', rfl⟩
      exact ⟨⟨t', ht', rfl⟩, by simpa using hsc⟩
    · rintro ⟨⟨t', ht', rfl⟩, hpos⟩
      exact List.mem_filter.mpr
        ⟨List.mem_map.mpr ⟨t', ht', rfl⟩, by simpa using hpos⟩
  refine ⟨rfl, ?_, key⟩
  intro h0 hmem
  have hpos := ((key _).mp hmem).2
  simp [finalizeTarget, h0] at hpos

/-- Witness for `zero_thrash_excluded`: with every patch fetch failing, a
high-churn target (score 700) has thrash total 0 and is excluded. -/
theorem zero_thrash_excluded_witness :
    (finalizeTarget failOracle ⟨"refs.c", [], 700, []⟩).Score =
      (700 : Nat) * thrashTotal failOracle ⟨"refs.c", [], 700, []⟩ ∧
    finalizeTarget failOracle ⟨"refs.c", [], 700, []⟩ ∉
      survivors failOracle [⟨"refs.c", [], 700, []⟩] :=
  ⟨(zero_thrash_excluded failOracle [⟨"refs.c", [], 700, []⟩]
      ⟨"refs.c", [], 700, []⟩).1,
   (zero_thrash_excluded failOracle [⟨"refs.c", [], 700, []⟩]
      ⟨"refs.c", [], 700, []⟩).2.1 rfl⟩

/-! ### Ranking (`ByScore`, `sort.Sort(ByScore(targets))`)

Go source:
```
func (s ByScore) Less(i, j int) bool {
    return s[i].Score > s[j].Score ||
        s[i].Score == s[j].Score && len(s[i].Commit) > len(s[j].Commit)
}
```
`sort.Sort` guarantees a permutation with no inversion of `Less`
(`¬ Less (later) (earlier)` for every earlier/later pair); it is modelled
here by insertion sort with exactly that non-inversion relation. -/

def targetLess (a b : Target) : Prop :=
  a.Score > b.Score ∨ (a.Score = b.Score ∧ a.Commit.length > b.Commit.length)

instance (a b : Target) : Decidable (targetLess a b) := by
  unfold targetLess
  infer_instance

/-- The sorted output of `sort.Sort(ByScore(targets))`. -/
def rankTargets (ts : List Target) : List Target :=
  ts.insertionSort (fun a b => ¬ targetLess b a)

lemma rankRel_total (a b : Target) :
    (¬ targetLess b a) ∨ (¬ targetLess a b) := by
  unfold targetLess
  by_cases h : a.Score = b.Score
  · omega
  · omega

lemma rankRel_trans (a b c : Target)
    (hab : ¬ targetLess b a) (hbc : ¬ targetLess c b) : ¬ targetLess c a := by
  unfold targetLess at *
  omega

lemma rankTargets_sorted (ts : List Target) :
    List.Sorted (fun a b => ¬ targetLess b a) (rankTargets ts) := by
  haveI : IsTotal Target (fun a b => ¬ targetLess b a) := ⟨rankRel_total⟩
  haveI : IsTrans Target (fun a b => ¬ targetLess b a) :=
    ⟨fun a b c => rankRel_trans a b c⟩
  exact List.sorted_insertionSort _ ts

/-- C5: in the ranked output (any top-K cut of the sorted target list),
every adjacent pair is in descending score order, with equal scores in
descending member-commit-count order (the earlier count is at least the
later one). -/
theorem ranking_descending (ts : List Target) (k : Nat) :
    List.Chain'
      (fun a b => a.Score > b.Score ∨
        (a.Score = b.Score ∧ a.Commit.length ≥ b.Commit.length))
      ((rankTargets ts).take k) := by
  have hs := rankTargets_sorted ts
  have hp : List.Pairwise
      (fun a b => a.Score > b.Score ∨
        (a.Score = b.Score ∧ a.Commit.length ≥ b.Commit.length))
      (rankTargets ts) := by
    refine hs.imp ?_
    intro a b hab
    unfold targetLess at hab
    omega
  have ht := hp.sublist (List.take_sublist k (rankTargets ts))
  exact ht.chain'

/-! ### Reporter (`main`, lines 292–326)

Go source:
```
for i, t := range targets {
    if i == *topTarget { break }
    fmt.Printf("%8.1f %-40s %4d\n", t.Score, shorten(t.Name, 40), len(t.Commit))
    for i, reason := range t.Reason {
        if i == *topReason { break }
        if *detail || reason.Count > 1 {
            fmt.Printf("    %4d %s\n", reason.Count, reason.Line)
        }
    }
    if *detail {
        for _, commit := range t.Commit {
            var msg string
            if len(commit.Message) > 0 { msg = commit.Message[0] }
            fmt.Printf("         %s %s (%s)\n", commit.ID[:7], msg, commit.Author.Name)
        }
    }
    fmt.Println()
}
fmt.Printf("total targets: %d, total commits: %d\n", len(targets), len(commits))
```
The report is modelled as the list of emitted lines (column padding of the
numeric fields is elided; only the line contents matter here).  The slice
`commit.ID[:7]` panics when the identifier has fewer than 7 characters
(`commitRegexp` guarantees only a non-empty identifier); that partiality is
modelled with `Option`. -/

/-- `commit.ID[:7]` followed by first message line and author name; `none`
models the slice panic on an identifier shorter than 7 characters. -/
def commitDetailLine (c : Commit) : Option String :=
  if 7 ≤ c.ID.length then
    some ("         " ++ c.ID.take 7 ++ " " ++ c.Message.headD "" ++ " (" ++
      c.Author.Name ++ ")")
  else none

/-- One reason line of the report. -/
def reasonLine (r : Reason) : String :=
  "    " ++ toString r.Count ++ " " ++ r.Line

/-- The block of lines for one target: header, up to `topReason` reasons
(shown when in detail mode or the count exceeds 1), the per-commit detail
lines in detail mode, and the trailing blank line. -/
def mapOption {α β : Type} (f : α → Option β) : List α → Option (List β)
  | [] => some []
  | a :: l =>
    match f a with
    | none => none
    | some b =>
      match mapOption f l with
      | none => none
      | some bs => some (b :: bs)

def reportTarget (detail : Bool) (topReason : Nat) (t : Target) :
    Option (List String) :=
  let header := toString t.Score ++ " " ++ shorten t.Name 40 ++ " " ++
    toString t.Commit.length
  let reasons :=
    ((t.Reason.take topReason).filter
      (fun r => detail || decide (1 < r.Count))).map reasonLine
  if detail then
    match mapOption commitDetailLine t.Commit with
    | none => none
    | some cls => some (header :: reasons ++ cls ++ [""])
  else
    some (header :: reasons ++ [""])

/-- The whole report: up to `topTarget` target blocks and the summary
line. -/
def report (detail : Bool) (topTarget topReason : Nat) (ts : List Target)
    (totalCommits : Nat) : Option (List String) :=
  match mapOption (reportTarget detail topReason) (ts.take topTarget) with
  | none => none
  | some blocks =>
    some (blocks.flatten ++
      ["total targets: " ++ toString ts.length ++ ", total commits: " ++
        toString totalCommits])

lemma mapOption_isSome {α β : Type} (f : α → Option β) :
    ∀ l : List α, (∀ a ∈ l, (f a).isSome) → (mapOption f l).isSome
  | [], _ => by simp [mapOption]
  | a :: l, h => by
    obtain ⟨b, hb⟩ := Option.isSome_iff_exists.mp (h a (by simp))
    obtain ⟨bs, hbs⟩ := Option.isSome_iff_exists.mp
      (mapOption_isSome f l (fun x hx => h x (by simp [hx])))
    simp [mapOption, hb, hbs]

lemma reportTarget_isSome (detail : Bool) (k : Nat) (t : Target)
    (h : ∀ c ∈ t.Commit, 7 ≤ c.ID.length) :
    (reportTarget detail k t).isSome := by
  cases detail with
  | false => simp [reportTarget]
  | true =>
    have hall : ∀ c ∈ t.Commit, (commitDetailLine c).isSome := by
      intro c hc
      simp [commitDetailLine, h c hc]
    obtain ⟨ls, hls⟩ :=
      Option.isSome_iff_exists.mp (mapOption_isSome _ _ hall)
    simp [reportTarget, hls]

/-- A surviving target whose member commit has a 3-character identifier
(`commitRegexp` accepts any non-empty identifier, so such a target is
reachable from a parsed log). -/
def shortIdTarget : Target :=
  ⟨"a.go", [mkCommit "abc"], 5, [⟨"x = 1", 2⟩]⟩

/-- Counterexample to C6 as stated: report emission is NOT total for every
surviving target list — in detail mode, a member commit whose identifier
has fewer than 7 characters makes the `commit.ID[:7]` slice abort, modelled
here by the report evaluating to `none`. -/
theorem report_fails_on_short_id :
    report true 10 3 [shortIdTarget] 1 = none := by decide

/-- C6 (amended): report emission over the surviving targets — including
detail mode with the 7-character abbreviated identifier, first message
line and author name of every member commit — cannot fail, provided every
member commit's identifier has at least 7 characters (as every real
40-character identifier does). -/
theorem report_total_with_long_ids (detail : Bool)
    (topTarget topReason : Nat) (ts : List Target) (totalCommits : Nat)
    (h : ∀ t ∈ ts, ∀ c ∈ t.Commit, 7 ≤ c.ID.length) :
    (report detail topTarget topReason ts totalCommits).isSome := by
  unfold report
  have hmem : ∀ t ∈ ts.take topTarget,
      (reportTarget detail topReason t).isSome := by
    intro t ht
    exact reportTarget_isSome _ _ _ (h t (List.take_subset topTarget ts ht))
  obtain ⟨blocks, hb⟩ :=
    Option.isSome_iff_exists.mp (mapOption_isSome _ _ hmem)
  simp [hb]

/-- Witness for `report_total_with_long_ids`: a detail-mode report over a
target whose member commit has a 40-character identifier. -/
theorem report_total_with_long_ids_witness :
    (report true 10 3
      [⟨"a.go", [mkCommit "0123456789abcdef0123456789abcdef01234567"], 5,
        [⟨"x = 1", 2⟩]⟩] 1).isSome :=
  report_total_with_long_ids true 10 3
    [⟨"a.go", [mkCommit "0123456789abcdef0123456789abcdef01234567"], 5,
      [⟨"x = 1", 2⟩]⟩] 1
    (by decide)

/-! ### Diff Extractor (`GitDiff`, lines 112–149)

Go source:
```
addRegexp        = regexp.MustCompile(`^\+([^+].*)$`)
delRegexp        = regexp.MustCompile(`^\-([^-].*)$`)
usefulLineRegexp = regexp.MustCompile(`(?:[a-zA-Z0-9_]+\(|^if |^for |=)`)

for s.Scan() {
    line := s.Text()
    if match := addRegexp.FindStringSubmatch(line); match != nil {
        s := strings.TrimSpace(match[1])
        if strings.HasPrefix(s, "/") || strings.HasPrefix(s, "*") { continue }
        if !usefulLineRegexp.MatchString(s) { continue }
        add = append(add, s)
    } else if match := delRegexp.FindStringSubmatch(line); match != nil {
        // identical, appending to del
    }
}
```
The pattern matches a line of at least two characters whose first character
is the marker and whose second is not; the captured group is everything
after the first character.  The useful-line pattern is unanchored except
for its `if `/`for ` alternatives: a word character immediately followed by
`(` anywhere, or an `=` anywhere. -/

/-- The ASCII white-space characters trimmed by `strings.TrimSpace` (the
non-ASCII space code points Go also trims cannot occur in the ASCII lines
considered here). -/
def isGoSpace (c : Char) : Bool :=
  c = ' ' || c = '\t' || c = '\n' || c = '\x0b' || c = '\x0c' || c = '\r'

def trimChars (l : List Char) : List Char :=
  ((l.dropWhile isGoSpace).reverse.dropWhile isGoSpace).reverse

/-- `strings.TrimSpace`. -/
def goTrimSpace (s : String) : String :=
  (trimChars s.data).asString

/-- A character of the regexp class `[a-zA-Z0-9_]`. -/
def isWordChar (c : Char) : Bool :=
  c.isAlphanum || c = '_'

/-- Whether the list has a word character immediately followed by `(`. -/
def hasCallParen : List Char → Bool
  | a :: b :: rest => (isWordChar a && b = '(') || hasCallParen (b :: rest)
  | _ => false

/-- `usefulLineRegexp.MatchString`. -/
def usefulLine (s : String) : Bool :=
  hasCallParen s.data || hasPrefix s "if " || hasPrefix s "for " ||
    s.data.contains '='

/-- `FindStringSubmatch` for the add/del patterns: the captured group, when
the line matches (first character is the marker, second is not). -/
def extractContent (marker : Char) (s : String) : Option String :=
  match s.data with
  | a :: b :: rest =>
    if a = marker ∧ b ≠ marker then some ((b :: rest).asString) else none
  | _ => none

/-- Trim, drop comment-like lines, keep only useful lines. -/
def keepUseful (s : String) : Option String :=
  let t := goTrimSpace s
  if hasPrefix t "/" || hasPrefix t "*" then none
  else if usefulLine t then some t else none

/-- What one patch line contributes to the added list. -/
def addExtract (l : String) : Option String :=
  (extractContent '+' l).bind keepUseful

/-- What one patch line contributes to the removed list. -/
def delExtract (l : String) : Option String :=
  (extractContent '-' l).bind keepUseful

/-- One iteration of the scan loop of `GitDiff` over `(add, del)`. -/
def diffStep (acc : List String × List String) (line : String) :
    List String × List String :=
  match extractContent '+' line with
  | some body =>
    match keepUseful body with
    | some t => (acc.1 ++ [t], acc.2)
    | none => acc
  | none =>
    match extractContent '-' line with
    | some body =>
      match keepUseful body with
      | some t => (acc.1, acc.2 ++ [t])
      | none => acc
    | none => acc

/-- The whole line loop of `GitDiff`: the returned (added, removed)
lists. -/
def gitDiffLines (lines : List String) : List String × List String :=
  lines.foldl diffStep ([], [])

/-! Spec-side predicates, written from the specification's words, compared
below with the extraction functions modelled from the source. -/

/-- The spec's added/removed line shape: the line begins with exactly one
marker character (not two), and the matched content is the rest. -/
def SpecContent (marker : Char) (l body : String) : Prop :=
  ∃ c rest, l.data = marker :: c :: rest ∧ c ≠ marker ∧
    body = (c :: rest).asString

/-- The spec's structurally-interesting test: an identifier character
immediately followed by `(`, or an `if `/`for ` start, or an `=`. -/
def SpecInteresting (t : String) : Prop :=
  (∃ pre a post, t.data = pre ++ a :: '(' :: post ∧ isWordChar a) ∨
    hasPrefix t "if " ∨ hasPrefix t "for " ∨ '=' ∈ t.data

/-- The spec's keep rule for a matched content `body`: whitespace-trimmed,
not starting with `/` or `*`, and structurally interesting. -/
def SpecKept (body t : String) : Prop :=
  t = goTrimSpace body ∧ ¬ hasPrefix t "/" ∧ ¬ hasPrefix t "*" ∧
    SpecInteresting t

lemma hasCallParen_iff : ∀ l : List Char,
    hasCallParen l = true ↔
      ∃ pre a post, l = pre ++ a :: '(' :: post ∧ isWordChar a = true
  | [] => by
    constructor
    · intro h
      simp [hasCallParen] at h
    · rintro ⟨pre, a, post, h, -⟩
      cases pre <;> simp at h
  | [x] => by
    constructor
    · intro h
      simp [hasCallParen] at h
    · rintro ⟨pre, a, post, h, -⟩
      rcases pre with - | ⟨p, ps⟩
      · simp at h
      · rcases ps with - | ⟨q, qs⟩ <;> simp at h
  | a :: b :: rest => by
    constructor
    · intro h
      rcases (Bool.or_eq_true _ _).mp h with h1 | h2
      · obtain ⟨hw, hb⟩ := (Bool.and_eq_true _ _).mp h1
        have hb' : b = '(' := by simpa using hb
        exact ⟨[], a, rest, by simp [hb'], hw⟩
      · obtain ⟨pre, x, post, heq, hw⟩ := (hasCallParen_iff (b :: rest)).mp h2
        exact ⟨a :: pre, x, post, by simp [heq], hw⟩
    · rintro ⟨pre, x, post, heq, hw⟩
      rcases pre with - | ⟨p, ps⟩
      · simp only [List.nil_append, List.cons.injEq] at heq
        obtain ⟨rfl, rfl, rfl⟩ := heq
        simp [hasCallParen, hw]
      · simp only [List.cons_append, List.cons.injEq] at heq
        obtain ⟨rfl, heq2⟩ := heq
        have hrec : hasCallParen (b :: rest) = true :=
          (hasCallParen_iff (b :: rest)).mpr ⟨ps, x, post, heq2, hw⟩
        simp [hasCallParen, hrec]

lemma usefulLine_iff (t : String) :
    usefulLine t = true ↔ SpecInteresting t := by
  unfold usefulLine SpecInteresting
  constructor
  · intro h
    rcases (Bool.or_eq_true _ _).mp h with h' | h4
    · rcases (Bool.or_eq_true _ _).mp h' with h'' | h3
      · rcases (Bool.or_eq_true _ _).mp h'' with h1 | h2
        · exact Or.inl ((hasCallParen_iff _).mp h1)
        · exact Or.inr (Or.inl h2)
      · exact Or.inr (Or.inr (Or.inl h3))
    · exact Or.inr (Or.inr (Or.inr (List.elem_iff.mp h4)))
  · intro h
    rcases h with h1 | h2 | h3 | h4
    · exact (Bool.or_eq_true _ _).mpr (Or.inl ((Bool.or_eq_true _ _).mpr
        (Or.inl ((Bool.or_eq_true _ _).mpr
          (Or.inl ((hasCallParen_iff _).mpr h1))))))
    · exact (Bool.or_eq_true _ _).mpr (Or.inl ((Bool.or_eq_true _ _).mpr
        (Or.inl ((Bool.or_eq_true _ _).mpr (Or.inr h2)))))
    · exact (Bool.or_eq_true _ _).mpr (Or.inl ((Bool.or_eq_true _ _).mpr
        (Or.inr h3)))
    · exact (Bool.or_eq_true _ _).mpr (Or.inr (List.elem_iff.mpr h4))

lemma extractContent_eq_some_iff (marker : Char) (l body : String) :
    extractContent marker l = some body ↔ SpecContent marker l body := by
  rcases hl : l.data with - | ⟨a, - | ⟨b, rest⟩⟩
  · simp [extractContent, SpecContent, hl]
  · simp [extractContent, SpecContent, hl]
  · simp only [extractContent, SpecContent, hl]
    constructor
    · intro h
      by_cases hc : a = marker ∧ b ≠ marker
      · rw [if_pos hc, Option.some.injEq] at h
        exact ⟨b, rest, by simp [hc.1], hc.2, h.symm⟩
      · rw [if_neg hc] at h
        exact absurd h (by simp)
    · rintro ⟨c, rest2, heq, hc, hbody⟩
      simp only [List.cons.injEq] at heq
      obtain ⟨rfl, rfl, rfl⟩ := heq
      simp [hc, hbody]

lemma extractContent_none_of_other (m1 m2 : Char) (l b : String)
    (hne : m1 ≠ m2) (h : extractContent m1 l = some b) :
    extractContent m2 l = none := by
  rcases hl : l.data with - | ⟨a, - | ⟨c, rest⟩⟩
  · simp [extractContent, hl]
  · simp [extractContent, hl]
  · simp only [extractContent, hl] at h ⊢
    by_cases hc : a = m1 ∧ c ≠ m1
    · rw [if_neg]
      rintro ⟨rfl, -⟩
      exact hne hc.1.symm
    · rw [if_neg hc] at h
      exact absurd h (by simp)

lemma keepUseful_eq_some_iff (body t : String) :
    keepUseful body = some t ↔ SpecKept body t := by
  have hk : keepUseful body =
      (if hasPrefix (goTrimSpace body) "/" || hasPrefix (goTrimSpace body) "*"
        then none
       else if usefulLine (goTrimSpace body) then some (goTrimSpace body)
        else none) := rfl
  rw [hk]
  unfold SpecKept
  constructor
  · intro h
    by_cases h1 : (hasPrefix (goTrimSpace body) "/" ||
        hasPrefix (goTrimSpace body) "*") = true
    · rw [if_pos h1] at h
      exact absurd h (by simp)
    · rw [if_neg h1] at h
      by_cases h2 : usefulLine (goTrimSpace body) = true
      · rw [if_pos h2, Option.some.injEq] at h
        subst h
        refine ⟨rfl, ?_, ?_, (usefulLine_iff _).mp h2⟩
        · intro hp; exact h1 (by simp [hp])
        · intro hp; exact h1 (by simp [hp])
      · rw [if_neg h2] at h
        exact absurd h (by simp)
  · rintro ⟨rfl, hn1, hn2, hint⟩
    rw [if_neg, if_pos ((usefulLine_iff _).mpr hint)]
    intro hor
    rcases (Bool.or_eq_true _ _).mp hor with h | h
    · exact hn1 h
    · exact hn2 h

lemma gitDiff_foldl (lines : List String) :
    ∀ acc : List String × List String,
      lines.foldl diffStep acc =
        (acc.1 ++ lines.filterMap addExtract,
         acc.2 ++ lines.filterMap delExtract) := by
  induction lines with
  | nil => intro acc; simp
  | cons l rest ih =>
    intro acc
    simp only [List.foldl_cons, List.filterMap_cons]
    rcases h1 : extractContent '+' l with - | b1
    · rcases h2 : extractContent '-' l with - | b2
      · have hstep : diffStep acc l = acc := by simp [diffStep, h1, h2]
        rw [hstep, ih]
        simp [addExtract, delExtract, h1, h2]
      · rcases h3 : keepUseful b2 with - | t2
        · have hstep : diffStep acc l = acc := by simp [diffStep, h1, h2, h3]
          rw [hstep, ih]
          simp [addExtract, delExtract, h1, h2, h3]
        · have hstep : diffStep acc l = (acc.1, acc.2 ++ [t2]) := by
            simp [diffStep, h1, h2, h3]
          rw [hstep, ih]
          simp [addExtract, delExtract, h1, h2, h3]
    · have h2 : extractContent '-' l = none :=
        extractContent_none_of_other '+' '-' l b1 (by decide) h1
      rcases h3 : keepUseful b1 with - | t1
      · have hstep : diffStep acc l = acc := by simp [diffStep, h1, h3]
        rw [hstep, ih]
        simp [addExtract, delExtract, h1, h2, h3]
      · have hstep : diffStep acc l = (acc.1 ++ [t1], acc.2) := by
          simp [diffStep, h1, h3]
        rw [hstep, ih]
        simp [addExtract, delExtract, h1, h2, h3]

/-- C7: the Diff Extractor's added (resp. removed) sequence is exactly the
per-line extraction of the input lines, and one line contributes `t` to the
added (resp. removed) sequence iff it begins with exactly one `+` (resp.
`-`) and not two, its matched content trims to `t`, `t` does not start with
`/` or `*`, and `t` contains an identifier character immediately followed
by `(`, or starts with `if ` or `for `, or contains `=`. -/
theorem diff_extractor_spec (lines : List String) :
    (gitDiffLines lines).1 = lines.filterMap addExtract ∧
    (gitDiffLines lines).2 = lines.filterMap delExtract ∧
    (∀ l t, addExtract l = some t ↔
      ∃ body, SpecContent '+' l body ∧ SpecKept body t) ∧
    (∀ l t, delExtract l = some t ↔
      ∃ body, SpecContent '-' l body ∧ SpecKept body t) := by
  have hchar : ∀ (marker : Char) (l t : String),
      (extractContent marker l).bind keepUseful = some t ↔
        ∃ body, SpecContent marker l body ∧ SpecKept body t := by
    intro marker l t
    constructor
    · intro h
      obtain ⟨body, hb, hk⟩ := Option.bind_eq_some.mp h
      exact ⟨body, (extractContent_eq_some_iff _ _ _).mp hb,
        (keepUseful_eq_some_iff _ _).mp hk⟩
    · rintro ⟨body, hc, hk⟩
      rw [Option.bind_eq_some]
      exact ⟨body, (extractContent_eq_some_iff _ _ _).mpr hc,
        (keepUseful_eq_some_iff _ _).mpr hk⟩
  refine ⟨?_, ?_, fun l t => hchar '+' l t, fun l t => hchar '-' l t⟩
  · rw [gitDiffLines, gitDiff_foldl]
    simp
  · rw [gitDiffLines, gitDiff_foldl]
    simp

/-! ### Log Parser (`GitLog`, lines 46–110)

Go source patterns:
```
commitRegexp  = regexp.MustCompile(`^commit (.+)$`)
treeRegexp    = regexp.MustCompile(`^tree (.+)$`)
parentRegexp  = regexp.MustCompile(`^parent (.+)$`)
authorRegexp  = regexp.MustCompile(`^author ([^ ]+) <([^ ]+)> ([^ ]+) [^ ]+$`)
messageRegexp = regexp.MustCompile(`^[ ]{4}(.+)$`)
diffRegexp    = regexp.MustCompile(`^([0-9]+)\t([0-9]+)\t(.+)$`)
```
The scan loop classifies each line by the first matching pattern (in that
order), appends a fresh `Commit` on a commit header, ignores any other
line when no commit exists yet, skips an author line whose timestamp fails
`strconv.ParseInt` and a stat line whose numeric field fails it, and
otherwise attaches the parsed data to the last commit.

Since `[^ ]+` cannot cross a space, the author pattern is equivalent to:
after `author `, exactly four non-empty space-separated tokens, the second
of the shape `<...>` with a non-empty inside.  Since `[0-9]+` cannot cross
a tab, the stat pattern is equivalent to: a non-empty digit run, a tab, a
non-empty digit run, a tab, and a non-empty remainder. -/

/-- Dropping the first `n` characters (all strings here are ASCII, where
bytes and characters agree). -/
def strDrop (s : String) (n : Nat) : String :=
  (s.data.drop n).asString

/-- Splitting on a single separator character (`strings.Split` semantics:
adjacent separators produce empty fields). -/
def splitChars (sep : Char) : List Char → List (List Char)
  | [] => [[]]
  | c :: rest =>
    let r := splitChars sep rest
    if c = sep then [] :: r
    else
      match r with
      | [] => [[c]]
      | g :: gs => (c :: g) :: gs

def splitOnChar (sep : Char) (s : String) : List String :=
  (splitChars sep s.data).map List.asString

def allDigits (s : String) : Bool :=
  s.data.all Char.isDigit

/-- The numeric value of a digit string. -/
def natFromDigits (l : List Char) : Nat :=
  l.foldl (fun acc c => acc * 10 + (c.toNat - 48)) 0

/-- `strconv.ParseInt(s, 10, 64)`: optional sign, a non-empty digit run,
and the value within the signed 64-bit range. -/
def parseInt64 (s : String) : Option Int :=
  let sd : Int × List Char :=
    match s.data with
    | '+' :: rest => (1, rest)
    | '-' :: rest => (-1, rest)
    | l => (1, l)
  if sd.2 ≠ [] ∧ sd.2.all Char.isDigit then
    let v : Int := sd.1 * (natFromDigits sd.2 : Int)
    if -(2 ^ 63) ≤ v ∧ v ≤ 2 ^ 63 - 1 then some v else none
  else none

/-- `strconv.ParseInt` on the digit-only strings captured by the stat
pattern: it fails exactly when the value overflows a signed 64-bit
integer. -/
def parseStatNum (s : String) : Option Nat :=
  if natFromDigits s.data ≤ 2 ^ 63 - 1 then some (natFromDigits s.data)
  else none

/-- `^commit (.+)$`. -/
def parseCommitLine (s : String) : Option String :=
  if hasPrefix s "commit " ∧ 7 < s.data.length then some (strDrop s 7)
  else none

/-- `^tree (.+)$`. -/
def parseTreeLine (s : String) : Option String :=
  if hasPrefix s "tree " ∧ 5 < s.data.length then some (strDrop s 5)
  else none

/-- `^parent (.+)$`. -/
def parseParentLine (s : String) : Option String :=
  if hasPrefix s "parent " ∧ 7 < s.data.length then some (strDrop s 7)
  else none

/-- `^author ([^ ]+) <([^ ]+)> ([^ ]+) [^ ]+$`: name, email (the part
between the angle brackets), timestamp string, timezone string. -/
def parseAuthorLine (s : String) : Option (String × String × String × String) :=
  if hasPrefix s "author " then
    match splitOnChar ' ' (strDrop s 7) with
    | [w1, w2, w3, w4] =>
      if w1 ≠ "" ∧ w3 ≠ "" ∧ w4 ≠ "" ∧ hasPrefix w2 "<" ∧ hasSuffix w2 ">" ∧
          3 ≤ w2.data.length
      then some (w1, ((w2.data.drop 1).dropLast).asString, w3, w4)
      else none
    | _ => none
  else none

/-- `^[ ]{4}(.+)$`. -/
def parseMessageLine (s : String) : Option String :=
  if hasPrefix s "    " ∧ 4 < s.data.length then some (strDrop s 4)
  else none

/-- `^([0-9]+)\t([0-9]+)\t(.+)$`: the two digit fields (as strings) and the
path (everything after the second tab). -/
def parseStatLine (s : String) : Option (String × String × String) :=
  match splitOnChar '\t' s with
  | p1 :: p2 :: rest =>
    if p1 ≠ "" ∧ allDigits p1 ∧ p2 ≠ "" ∧ allDigits p2 ∧ rest ≠ [] ∧
        String.intercalate "\t" rest ≠ ""
    then some (p1, p2, String.intercalate "\t" rest)
    else none
  | _ => none

/-- The classification of one log line: the first matching pattern of the
scan loop's regexp chain. -/
inductive LogLine where
  | commitH (id : String)
  | treeH (t : String)
  | parentH (p : String)
  | authorH (name email ts tz : String)
  | messageH (m : String)
  | statH (a d p : String)
  | other
  deriving Repr, DecidableEq

def LogLine.isCommitH : LogLine → Bool
  | .commitH _ => true
  | _ => false

def classifyLine (s : String) : LogLine :=
  match parseCommitLine s with
  | some id => .commitH id
  | none =>
    match parseTreeLine s with
    | some t => .treeH t
    | none =>
      match parseParentLine s with
      | some p => .parentH p
      | none =>
        match parseAuthorLine s with
        | some (nm, em, ts, tz) => .authorH nm em ts tz
        | none =>
          match parseMessageLine s with
          | some m => .messageH m
          | none =>
            match parseStatLine s with
            | some (a, d, p) => .statH a d p
            | none => .other

/-- `commits[len(commits)-1] = f(commits[len(commits)-1])`. -/
def updLast : List Commit → (Commit → Commit) → List Commit
  | [], _ => []
  | [c], f => [f c]
  | c :: c2 :: rest, f => c :: updLast (c2 :: rest) f

/-- One iteration of the scan loop of `GitLog`. -/
def stepLog (cs : List Commit) (s : String) : List Commit :=
  match classifyLine s with
  | .commitH id => cs ++ [⟨id, "", "", ⟨"", "", 0⟩, [], []⟩]
  | .treeH t =>
    if cs.isEmpty then cs else updLast cs (fun c => { c with Tree := t })
  | .parentH p =>
    if cs.isEmpty then cs else updLast cs (fun c => { c with Parent := p })
  | .authorH nm em ts _tz =>
    if cs.isEmpty then cs
    else
      match parseInt64 ts with
      | none => cs
      | some i => updLast cs (fun c => { c with Author := ⟨nm, em, i⟩ })
  | .messageH m =>
    if cs.isEmpty then cs
    else updLast cs (fun c => { c with Message := c.Message ++ [m] })
  | .statH a d p =>
    if cs.isEmpty then cs
    else
      match parseStatNum a with
      | none => cs
      | some av =>
        match parseStatNum d with
        | none => cs
        | some dv =>
          updLast cs (fun c => { c with Diff := c.Diff ++ [⟨p, av, dv⟩] })
  | .other => cs

/-- The whole line loop of `GitLog`. -/
def gitLogParse (lines : List String) : List Commit :=
  lines.foldl stepLog []

lemma updLast_append (cs : List Commit) (c : Commit) (f : Commit → Commit) :
    updLast (cs ++ [c]) f = cs ++ [f c] := by
  induction cs with
  | nil => rfl
  | cons a rest ih =>
    cases rest with
    | nil => rfl
    | cons b bs =>
      simp only [List.cons_append, List.append_eq, updLast] at ih ⊢
      rw [ih]

/-- C9: the Log Parser never aborts on a malformed line: (1) any non-header
line arriving before the first commit header leaves the (empty) commit list
unchanged; (2) an author line whose timestamp fails integer parsing is
skipped without losing the current commits; (3) the binary-file stat form
`-\t-\tpath` is dropped; (4) a stat line whose numeric field overflows is
dropped; (5)–(7) well-formed message, stat and author lines are attached to
the last commit. -/
theorem log_parser_robust :
    (∀ s : String, (classifyLine s).isCommitH = false → stepLog [] s = []) ∧
    (∀ (cs : List Commit) (s nm em ts tz : String),
      classifyLine s = .authorH nm em ts tz → parseInt64 ts = none →
      stepLog cs s = cs) ∧
    (∀ cs : List Commit, stepLog cs "-\t-\tREADME.bin" = cs) ∧
    (∀ (cs : List Commit) (s a d p : String),
      classifyLine s = .statH a d p → parseStatNum a = none →
      stepLog cs s = cs) ∧
    (∀ (cs : List Commit) (c : Commit) (s m : String),
      classifyLine s = .messageH m →
      stepLog (cs ++ [c]) s =
        cs ++ [{ c with Message := c.Message ++ [m] }]) ∧
    (∀ (cs : List Commit) (c : Commit) (s a d p : String) (av dv : Nat),
      classifyLine s = .statH a d p → parseStatNum a = some av →
      parseStatNum d = some dv →
      stepLog (cs ++ [c]) s =
        cs ++ [{ c with Diff := c.Diff ++ [⟨p, av, dv⟩] }]) ∧
    (∀ (cs : List Commit) (c : Commit) (s nm em ts tz : String) (i : Int),
      classifyLine s = .authorH nm em ts tz → parseInt64 ts = some i →
      stepLog (cs ++ [c]) s = cs ++ [{ c with Author := ⟨nm, em, i⟩ }]) := by
  refine ⟨?_, ?_, ?_, ?_, ?_, ?_, ?_⟩
  · intro s h
    rcases hcl : classifyLine s with id | t | p | ⟨nm, em, ts, tz⟩ | m |
      ⟨a, d, p⟩ | -
    · rw [hcl] at h
      simp [LogLine.isCommitH] at h
    all_goals simp [stepLog, hcl]
  · intro cs s nm em ts tz hcl hts
    simp only [stepLog, hcl, hts]
    cases cs <;> simp
  · intro cs
    have hcl : classifyLine "-\t-\tREADME.bin" = .other := by decide
    simp [stepLog, hcl]
  · intro cs s a d p hcl ha
    simp only [stepLog, hcl, ha]
    cases cs <;> simp
  · intro cs c s m hcl
    simp only [stepLog, hcl]
    rw [if_neg (by simp), updLast_append]
  · intro cs c s a d p av dv hcl ha hd
    simp only [stepLog, hcl, ha, hd]
    rw [if_neg (by simp), updLast_append]
  · intro cs c s nm em ts tz i hcl hts
    simp only [stepLog, hcl, hts]
    rw [if_neg (by simp), updLast_append]

/-- Witness for `log_parser_robust` at concrete lines: a tree line before
any commit; an author line with a non-numeric timestamp; the binary stat
line; a stat line with an overflowing count; and a message, a stat and an
author line attached to the last commit. -/
theorem log_parser_robust_witness :
    stepLog [] "tree 0a1b" = [] ∧
    stepLog [mkCommit "c1"] "author Alice <a@b.io> soon +0000" =
      [mkCommit "c1"] ∧
    stepLog [mkCommit "c1"] "-\t-\tREADME.bin" = [mkCommit "c1"] ∧
    stepLog [mkCommit "c1"] "99999999999999999999\t1\tmain.go" =
      [mkCommit "c1"] ∧
    stepLog [mkCommit "c1"] "    fix bug" =
      [{ mkCommit "c1" with Message := ["fix bug"] }] ∧
    stepLog [mkCommit "c1"] "3\t14\tmain.go" =
      [{ mkCommit "c1" with Diff := [⟨"main.go", 3, 14⟩] }] ∧
    stepLog [mkCommit "c1"] "author Alice <a@b.io> 1500000000 -0700" =
      [{ mkCommit "c1" with Author := ⟨"Alice", "a@b.io", 1500000000⟩ }] := by
  refine ⟨?_, ?_, ?_, ?_, ?_, ?_, ?_⟩
  · exact log_parser_robust.1 "tree 0a1b" (by decide)
  · exact log_parser_robust.2.1 [mkCommit "c1"]
      "author Alice <a@b.io> soon +0000" "Alice" "a@b.io" "soon" "+0000"
      (by decide) (by decide)
  · exact log_parser_robust.2.2.1 [mkCommit "c1"]
  · exact log_parser_robust.2.2.2.1 [mkCommit "c1"]
      "99999999999999999999\t1\tmain.go" "99999999999999999999" "1" "main.go"
      (by decide) (by decide)
  · have h := log_parser_robust.2.2.2.2.1 [] (mkCommit "c1") "    fix bug"
      "fix bug" (by decide)
    simpa using h
  · have h := log_parser_robust.2.2.2.2.2.1 [] (mkCommit "c1")
      "3\t14\tmain.go" "3" "14" "main.go" 3 14 (by decide) (by decide)
      (by decide)
    simpa using h
  · have h := log_parser_robust.2.2.2.2.2.2 [] (mkCommit "c1")
      "author Alice <a@b.io> 1500000000 -0700" "Alice" "a@b.io"
      "1500000000" "-0700" 1500000000 (by decide) (by decide)
    simpa using h

/-- C2: for a file diff with `n = Add + Delete` changed lines, the per-file
magnitude score is `⌊log₁₀ n⌋ + 1` (i.e. `Nat.log 10 n + 1`) when `n ≥ 1`,
and `0` when `n = 0`. -/
theorem fileScore_eq_digits (d : Diff) :
    (1 ≤ d.Add + d.Delete → fileScore d = Nat.log 10 (d.Add + d.Delete) + 1) ∧
    (d.Add + d.Delete = 0 → fileScore d = 0) := by
  constructor
  · intro h
    exact edit2score_eq_log_succ _ h
  · intro h
    simp [fileScore, h, edit2score_zero]

/-- Witness for `fileScore_eq_digits` at concrete diffs: 1 line → 1,
10 lines → 2, 100 lines → 3, 0 lines → 0. -/
theorem fileScore_eq_digits_witness :
    fileScore ⟨"a.go", 1, 0⟩ = Nat.log 10 1 + 1 ∧
    fileScore ⟨"a.go", 7, 3⟩ = Nat.log 10 10 + 1 ∧
    fileScore ⟨"a.go", 50, 50⟩ = Nat.log 10 100 + 1 ∧
    fileScore ⟨"a.go", 0, 0⟩ = 0 :=
  ⟨(fileScore_eq_digits ⟨"a.go", 1, 0⟩).1 (by decide),
   (fileScore_eq_digits ⟨"a.go", 7, 3⟩).1 (by decide),
   (fileScore_eq_digits ⟨"a.go", 50, 50⟩).1 (by decide),
   (fileScore_eq_digits ⟨"a.go", 0, 0⟩).2 (by decide)⟩

/-- C10: a name longer than the configured width 40 is rendered as its
first 37 characters followed by `...`; any width below 3 renders the empty
string; a name not longer than the width is rendered unchanged. -/
theorem shorten_spec (s : String) :
    (40 < s.length → shorten s 40 = s.take 37 ++ "...") ∧
    (∀ l : Nat, l < 3 → shorten s l = "") ∧
    (∀ l : Nat, ¬ l < 3 → s.length ≤ l → shorten s l = s) := by
  refine ⟨?_, ?_, ?_⟩
  · intro h
    rw [shorten]
    norm_num [h]
  · intro l hl
    rw [shorten]
    simp [hl]
  · intro l hl hle
    rw [shorten]
    simp [hl, Nat.not_lt.mpr hle]

/-- Witness for `shorten_spec`: a 41-character name at width 40, any name
at width 2, and a short name at width 40. -/
theorem shorten_spec_witness :
    shorten "abcdefghijklmnopqrstuvwxyzabcdefghijklmno" 40 =
      ("abcdefghijklmnopqrstuvwxyzabcdefghijklmno".take 37 ++ "...") ∧
    shorten "main.go" 2 = "" ∧
    shorten "main.go" 40 = "main.go" :=
  ⟨(shorten_spec "abcdefghijklmnopqrstuvwxyzabcdefghijklmno").1 (by decide),
   (shorten_spec "main.go").2.1 2 (by decide),
   (shorten_spec "main.go").2.2 40 (by decide) (by decide)⟩

end Refactor
